import Mathlib

/-
Verification of the encrypted aggregation and selective disclosure core of
the bank_AML_dist_TEE repository (src/main.rs), against its design
specification. The homomorphic encryption capability (tfhe radix
ciphertexts under PARAM_MESSAGE_2_CARRY_2_KS_PBS with NUM_BLOCKS = 4
blocks) is embedded by its plaintext semantics: each radix ciphertext
carries a value modulo 4 ^ 4 = 256, homomorphic addition adds modulo 256,
and the homomorphic equality test compares the carried values.
-/

namespace BankAML

/-- Number of simulated banks, the constant N_BANKS in src/main.rs. -/
def N_BANKS : Nat := 5

/-- Quorum threshold, the constant THRESHOLD in src/main.rs. -/
def THRESHOLD : Nat := 3

/-- Records per bank, the constant CLIENTS_PER_BANK in src/main.rs. -/
def CLIENTS_PER_BANK : Nat := 30

/-- Number of radix blocks, the constant NUM_BLOCKS in src/main.rs. -/
def NUM_BLOCKS : Nat := 4

/-- Message modulus of the shortint parameter set
PARAM_MESSAGE_2_CARRY_2_KS_PBS: two message bits per block, so each block
carries a value below 4. -/
def messageModulus : Nat := 4

/-- Plaintext modulus of a radix ciphertext made of NUM_BLOCKS blocks:
4 ^ 4 = 256. All radix plaintexts live modulo this value. -/
def radixModulus : Nat := messageModulus ^ NUM_BLOCKS

/-- Model of a tfhe RadixCiphertext: the plaintext value it carries.
Every constructor below reduces the value modulo radixModulus, matching
the 8-bit plaintext space of the chosen parameters. -/
structure RadixCiphertext where
  val : Nat
deriving DecidableEq

/-- Model of a tfhe BooleanBlock, the encrypted result of a homomorphic
comparison. -/
structure BooleanBlock where
  val : Bool
deriving DecidableEq

/-- client_key.encrypt: the ciphertext carries the plaintext modulo 256. -/
def encrypt (x : Nat) : RadixCiphertext := ⟨x % radixModulus⟩

/-- client_key.decrypt: recovers the carried value (the original plaintext
reduced modulo 256). -/
def decrypt (c : RadixCiphertext) : Nat := c.val

/-- server_key.create_trivial_radix: a trivial encryption of a public
constant, again modulo 256. -/
def create_trivial_radix (x : Nat) : RadixCiphertext := ⟨x % radixModulus⟩

/-- server_key.smart_add_assign: homomorphic addition, modulo 256. -/
def smart_add (a b : RadixCiphertext) : RadixCiphertext :=
  ⟨(a.val + b.val) % radixModulus⟩

/-- server_key.smart_eq: homomorphic equality test on radix ciphertexts. -/
def smart_eq (a b : RadixCiphertext) : BooleanBlock := ⟨a.val == b.val⟩

/-- client_key.decrypt_bool: opens an encrypted comparison result. -/
def decrypt_bool (b : BooleanBlock) : Bool := b.val

/-- A Sealed Record: an encrypted (token, score) pair, as pushed onto
encrypted_records in src/main.rs. -/
abbrev SealedRecord := RadixCiphertext × RadixCiphertext

/-- The aggregates map of src/main.rs: a finite map from the decrypted
grouping key to the encrypted (running sum, running count) pair, embedded
as an association list with unique keys. -/
abbrev Aggregates := List (Nat × (RadixCiphertext × RadixCiphertext))

/-- HashMap lookup (aggregates.get): first entry with the given key. -/
def lookupAgg : Aggregates → Nat → Option (RadixCiphertext × RadixCiphertext)
  | [], _ => none
  | (k, v) :: rest, key => if k = key then some v else lookupAgg rest key

/-- HashMap store (entry .. followed by the final writes to entry.0 and
entry.1): replace the value at the key if present, append it otherwise. -/
def setEntry : Aggregates → Nat → RadixCiphertext × RadixCiphertext → Aggregates
  | [], key, v => [(key, v)]
  | (k, w) :: rest, key, v =>
      if k = key then (key, v) :: rest else (k, w) :: setEntry rest key v

/-- A decryption performed by the aggregation engine, recorded so the
engine's use of the client key can be audited: the decryption of a token
ciphertext (line 59 of src/main.rs), of a score ciphertext (never present),
or of an encrypted equality result (line 78 of src/main.rs). -/
inductive DecEvent where
  | token (v : Nat)
  | score (v : Nat)
  | eqBool (b : Bool)
deriving DecidableEq

/-- Whether a decryption event opened a score ciphertext. -/
def DecEvent.isScore : DecEvent → Bool
  | .score _ => true
  | _ => false

/-- Whether a decryption event opened a token ciphertext. -/
def DecEvent.isToken : DecEvent → Bool
  | .token _ => true
  | _ => false

/-- The inner loop of the aggregation (lines 74 to 83 of src/main.rs):
scan every later record, homomorphically test its token for equality with
the current record's token, and on a match add its encrypted score to the
running sum and a trivial 1 to the running count. Also returns the list of
decryptions performed. -/
def scanLater (ct_id : RadixCiphertext) :
    List SealedRecord → RadixCiphertext → RadixCiphertext →
      (RadixCiphertext × RadixCiphertext) × List DecEvent
  | [], sum, count => ((sum, count), [])
  | (ct_id_j, ct_score_j) :: rest, sum, count =>
      let b := decrypt_bool (smart_eq ct_id ct_id_j)
      let next :=
        if b then
          scanLater ct_id rest (smart_add sum ct_score_j)
            (smart_add count (create_trivial_radix 1))
        else
          scanLater ct_id rest sum count
      (next.1, DecEvent.eqBool b :: next.2)

/-- The outer aggregation loop (lines 57 to 87 of src/main.rs): for each
record in order, decrypt its token to obtain the grouping key, fetch or
create the entry seeded with (trivial 0, trivial 1), add the current
record's score and a trivial 1, scan all later records, and write the
result back. Also returns the list of decryptions performed. -/
def aggLoop : List SealedRecord → Aggregates → Aggregates × List DecEvent
  | [], aggs => (aggs, [])
  | (ct_id_i, ct_score_i) :: rest, aggs =>
      let plain_id := decrypt ct_id_i
      let entry := (lookupAgg aggs plain_id).getD
        (create_trivial_radix 0, create_trivial_radix 1)
      let scanned := scanLater ct_id_i rest (smart_add entry.1 ct_score_i)
        (smart_add entry.2 (create_trivial_radix 1))
      let next := aggLoop rest (setEntry aggs plain_id scanned.1)
      (next.1, DecEvent.token plain_id :: (scanned.2 ++ next.2))

/-- The aggregation engine: the aggregates map produced from a sequence of
sealed records. -/
def aggregate (recs : List SealedRecord) : Aggregates := (aggLoop recs []).1

/-- The decryptions the aggregation engine performs on a sequence of
sealed records. -/
def aggTrace (recs : List SealedRecord) : List DecEvent := (aggLoop recs []).2

/-- Sealing a list of plaintext (token, score) records (lines 42 to 50 of
src/main.rs). -/
def sealRecords (recs : List (Nat × Nat)) : List SealedRecord :=
  recs.map (fun r => (encrypt r.1, encrypt r.2))

/-- The aggregation engine applied to plaintext records after sealing. -/
def aggregatePlain (recs : List (Nat × Nat)) : Aggregates :=
  aggregate (sealRecords recs)

/-- An aggregates map with every ciphertext opened: (key, decrypted sum,
decrypted count) per entry. -/
def decryptedEntries (aggs : Aggregates) : List (Nat × Nat × Nat) :=
  aggs.map (fun e => (e.1, decrypt e.2.1, decrypt e.2.2))

/-- The quorum check of line 102 of src/main.rs: it counts how many of
N_BANKS independent random draws (rng.gen_bool 0.4) came up true and
compares that count with THRESHOLD. The stream of random draws is made an
explicit argument. -/
def quorumCheck (draws : List Bool) : Bool :=
  decide (THRESHOLD ≤ List.countP (fun b => b) draws)

/-- The Selective Disclosure Gate for one (party, token) pair (lines 96 to
108 of src/main.rs): look the party's known token up in the aggregates
map; if absent produce nothing, otherwise decrypt the sum and count and
reveal them exactly when the quorum check on the random draws passes. -/
def revealFor (aggs : Aggregates) (known_id : Nat) (draws : List Bool) :
    Option (Nat × Nat) :=
  match lookupAgg aggs known_id with
  | none => none
  | some e =>
      if quorumCheck draws then some (decrypt e.1, decrypt e.2) else none

/-- The number of parties holding a given token: how many banks have a
record with that token. Used to state the quorum claims. -/
def partiesHolding (banks : List (List (Nat × Nat))) (t : Nat) : Nat :=
  List.countP (fun bank => bank.any (fun r => r.1 == t)) banks

/-- Every entry of setEntry aggs key v either has the stored key or was
already an entry of aggs. -/
theorem mem_setEntry (aggs : Aggregates) (key : Nat)
    (v : RadixCiphertext × RadixCiphertext)
    (e : Nat × (RadixCiphertext × RadixCiphertext))
    (he : e ∈ setEntry aggs key v) : e.1 = key ∨ e ∈ aggs := by
  induction aggs with
  | nil =>
      simp only [setEntry, List.mem_singleton] at he
      subst he
      exact Or.inl rfl
  | cons hd rest ih =>
      obtain ⟨k, w⟩ := hd
      simp only [setEntry] at he
      by_cases hk : k = key
      · rw [if_pos hk] at he
        rcases List.mem_cons.mp he with h1 | h2
        · exact Or.inl (by rw [h1])
        · exact Or.inr (List.mem_cons_of_mem _ h2)
      · rw [if_neg hk] at he
        rcases List.mem_cons.mp he with h1 | h2
        · exact Or.inr (by rw [h1]; exact List.mem_cons_self _ _)
        · rcases ih h2 with h3 | h4
          · exact Or.inl h3
          · exact Or.inr (List.mem_cons_of_mem _ h4)

/-- Looking a key up fails when every stored key is below the radix
modulus and the key is not. -/
theorem lookupAgg_eq_none (aggs : Aggregates) (key : Nat)
    (ha : ∀ e ∈ aggs, Prod.fst e < radixModulus)
    (hk : radixModulus ≤ key) : lookupAgg aggs key = none := by
  induction aggs with
  | nil => rfl
  | cons hd rest ih =>
      obtain ⟨k, w⟩ := hd
      have hklt : k < radixModulus := ha (k, w) (List.mem_cons_self _ _)
      have hne : k ≠ key := by omega
      simp only [lookupAgg, if_neg hne]
      exact ih (fun e hmem => ha e (List.mem_cons_of_mem _ hmem))

/-- Every key of the aggregates map built by the aggregation loop is below
the radix modulus, because each key is a decrypted token. -/
theorem aggLoop_keys_lt : ∀ (recs : List SealedRecord) (aggs : Aggregates),
    (∀ r ∈ recs, (Prod.fst r).val < radixModulus) →
    (∀ e ∈ aggs, Prod.fst e < radixModulus) →
    ∀ e ∈ (aggLoop recs aggs).1, Prod.fst e < radixModulus := by
  intro recs
  induction recs with
  | nil =>
      intro aggs _ ha e he
      simp only [aggLoop] at he
      exact ha e he
  | cons r rest ih =>
      obtain ⟨ci, si⟩ := r
      intro aggs hr ha e he
      simp only [aggLoop, decrypt] at he
      refine ih _ (fun q hq => hr q (List.mem_cons_of_mem _ hq)) ?_ e he
      intro f hf
      rcases mem_setEntry _ _ _ _ hf with h1 | h2
      · rw [h1]; exact hr (ci, si) (List.mem_cons_self _ _)
      · exact ha f h2

/-- The inner scan decrypts only encrypted equality results: any predicate
false on equality events counts zero events in its trace. -/
theorem scanLater_trace_countP (p : DecEvent → Bool)
    (hp : ∀ b, p (DecEvent.eqBool b) = false) (ct : RadixCiphertext) :
    ∀ (l : List SealedRecord) (s c : RadixCiphertext),
      List.countP p (scanLater ct l s c).2 = 0 := by
  intro l
  induction l with
  | nil => intro s c; rfl
  | cons r rest ih =>
      obtain ⟨cj, sj⟩ := r
      intro s c
      cases hb : decrypt_bool (smart_eq ct cj) <;>
        simp [scanLater, hb, List.countP_cons, hp, ih]

/-- The aggregation loop never decrypts a score ciphertext. -/
theorem aggLoop_countP_score (recs : List SealedRecord) :
    ∀ aggs : Aggregates,
      List.countP DecEvent.isScore (aggLoop recs aggs).2 = 0 := by
  induction recs with
  | nil => intro aggs; rfl
  | cons r rest ih =>
      obtain ⟨ci, si⟩ := r
      intro aggs
      simp [aggLoop, List.countP_cons, List.countP_append, ih,
        scanLater_trace_countP DecEvent.isScore (fun b => rfl) ci,
        DecEvent.isScore]

/-- The aggregation loop decrypts exactly one token ciphertext per
record. -/
theorem aggLoop_countP_token (recs : List SealedRecord) :
    ∀ aggs : Aggregates,
      List.countP DecEvent.isToken (aggLoop recs aggs).2 = recs.length := by
  induction recs with
  | nil => intro aggs; rfl
  | cons r rest ih =>
      obtain ⟨ci, si⟩ := r
      intro aggs
      simp [aggLoop, List.countP_cons, List.countP_append, ih,
        scanLater_trace_countP DecEvent.isToken (fun b => rfl) ci,
        DecEvent.isToken]

/-- The radix plaintext modulus evaluates to 256. -/
theorem radixModulus_eq : radixModulus = 256 := by
  norm_num [radixModulus, messageModulus, NUM_BLOCKS]

/-- Sealing one more copy of the record (0, 1) prepends its sealed form. -/
theorem sealRecords_replicate_succ (j : Nat) :
    sealRecords (List.replicate (j + 1) (0, 1))
      = (encrypt 0, encrypt 1) :: sealRecords (List.replicate j (0, 1)) := rfl

/-- One unfolding step of the inner scan, restricted to the accumulator. -/
theorem scanLater_fst_cons (ct a b : RadixCiphertext)
    (rest : List SealedRecord) (s c : RadixCiphertext) :
    (scanLater ct ((a, b) :: rest) s c).1
      = (if decrypt_bool (smart_eq ct a) then
           scanLater ct rest (smart_add s b)
             (smart_add c (create_trivial_radix 1))
         else scanLater ct rest s c).1 := rfl

/-- One unfolding step of the aggregation loop, restricted to the
aggregates map. -/
theorem aggLoop_fst_cons (a b : RadixCiphertext)
    (rest : List SealedRecord) (aggs : Aggregates) :
    (aggLoop ((a, b) :: rest) aggs).1
      = (aggLoop rest (setEntry aggs (decrypt a)
          (scanLater a rest
            (smart_add ((lookupAgg aggs (decrypt a)).getD
                (create_trivial_radix 0, create_trivial_radix 1)).1 b)
            (smart_add ((lookupAgg aggs (decrypt a)).getD
                (create_trivial_radix 0, create_trivial_radix 1)).2
              (create_trivial_radix 1))).1)).1 := rfl

/-- Scanning j sealed copies of the record (0, 1) with the token 0 adds j
to both running ciphertexts, modulo 256. -/
theorem scanLater_replicate_fst (j : Nat) : ∀ s c : Nat, s < 256 → c < 256 →
    (scanLater (encrypt 0) (sealRecords (List.replicate j (0, 1)))
        ⟨s⟩ ⟨c⟩).1
      = (⟨(s + j) % 256⟩, ⟨(c + j) % 256⟩) := by
  induction j with
  | zero =>
      intro s c hs hc
      simp [List.replicate_zero, sealRecords, scanLater,
        Nat.mod_eq_of_lt hs, Nat.mod_eq_of_lt hc]
  | succ j ih =>
      intro s c hs hc
      rw [sealRecords_replicate_succ, scanLater_fst_cons]
      have hb : decrypt_bool (smart_eq (encrypt 0) (encrypt 0)) = true := rfl
      rw [hb, if_pos rfl]
      have ha1 : smart_add ⟨s⟩ (encrypt 1) = ⟨(s + 1) % 256⟩ := by
        simp [smart_add, encrypt, radixModulus_eq]
      have ha2 : smart_add ⟨c⟩ (create_trivial_radix 1) = ⟨(c + 1) % 256⟩ := by
        simp [smart_add, create_trivial_radix, radixModulus_eq]
      rw [ha1, ha2, ih ((s + 1) % 256) ((c + 1) % 256)
        (Nat.mod_lt _ (by norm_num)) (Nat.mod_lt _ (by norm_num))]
      simp only [Prod.mk.injEq, RadixCiphertext.mk.injEq]
      constructor <;> omega

/-- Aggregating m sealed copies of the record (0, 1) into a map holding
one entry for token 0 adds the triangular number m (m + 1) / 2 to both
the running sum and the running count, modulo 256: every record is added
once as the current record and once per earlier record of its class. -/
theorem aggLoop_replicate_fst (m : Nat) : ∀ s c : Nat, s < 256 → c < 256 →
    (aggLoop (sealRecords (List.replicate m (0, 1))) [(0, (⟨s⟩, ⟨c⟩))]).1
      = [(0, (⟨(s + m * (m + 1) / 2) % 256⟩,
              ⟨(c + m * (m + 1) / 2) % 256⟩))] := by
  induction m with
  | zero =>
      intro s c hs hc
      simp [List.replicate_zero, sealRecords, aggLoop,
        Nat.mod_eq_of_lt hs, Nat.mod_eq_of_lt hc]
  | succ m ih =>
      intro s c hs hc
      rw [sealRecords_replicate_succ, aggLoop_fst_cons]
      have hdec : decrypt (encrypt 0) = 0 := by
        simp [decrypt, encrypt]
      rw [hdec]
      have hlook : lookupAgg [(0, ((⟨s⟩ : RadixCiphertext),
          (⟨c⟩ : RadixCiphertext)))] 0 = some (⟨s⟩, ⟨c⟩) := by
        simp [lookupAgg]
      rw [hlook]
      simp only [Option.getD_some]
      have ha1 : smart_add ⟨s⟩ (encrypt 1) = ⟨(s + 1) % 256⟩ := by
        simp [smart_add, encrypt, radixModulus_eq]
      have ha2 : smart_add ⟨c⟩ (create_trivial_radix 1) = ⟨(c + 1) % 256⟩ := by
        simp [smart_add, create_trivial_radix, radixModulus_eq]
      rw [ha1, ha2, scanLater_replicate_fst m ((s + 1) % 256) ((c + 1) % 256)
        (Nat.mod_lt _ (by norm_num)) (Nat.mod_lt _ (by norm_num))]
      have hset : ∀ v : RadixCiphertext × RadixCiphertext,
          setEntry [(0, ((⟨s⟩ : RadixCiphertext), (⟨c⟩ : RadixCiphertext)))]
            0 v = [(0, v)] := by
        intro v
        simp [setEntry]
      rw [hset]
      rw [ih (((s + 1) % 256 + m) % 256) (((c + 1) % 256 + m) % 256)
        (Nat.mod_lt _ (by norm_num)) (Nat.mod_lt _ (by norm_num))]
      have key : (m + 1) * (m + 1 + 1) / 2 = m * (m + 1) / 2 + (m + 1) := by
        have h2 : (m + 1) * (m + 1 + 1) = m * (m + 1) + 2 * (m + 1) := by
          ring
        rw [h2, Nat.add_mul_div_left _ _ (by norm_num)]
      have hA : (((s + 1) % 256 + m) % 256 + m * (m + 1) / 2) % 256
          = (s + (m + 1) * (m + 1 + 1) / 2) % 256 := by
        rw [key]
        generalize m * (m + 1) / 2 = T
        omega
      have hB : (((c + 1) % 256 + m) % 256 + m * (m + 1) / 2) % 256
          = (c + (m + 1) * (m + 1 + 1) / 2) % 256 := by
        rw [key]
        generalize m * (m + 1) / 2 = T
        omega
      rw [hA, hB]

/-- Claim C1. The claim states that for every Aggregate Entry the
decrypted count equals the number of records whose token matched the
entry, each counted exactly once, and the decrypted sum equals the sum of
their plaintext scores. The code violates this: on two records with token
0 and scores 1 and 2, exactly 2 records match the single entry and their
scores sum to 3, yet the engine produces decrypted sum 5 and count 4,
because no record is marked as consumed after being matched and the entry
is seeded with count 1 before the current record adds another 1. -/
theorem C1_aggregation_miscounts :
    decryptedEntries (aggregatePlain [(0, 1), (0, 2)]) = [(0, 5, 4)] ∧
    (List.filter (fun r => r.1 % 256 == 0) [(0, 1), (0, 2)]).length = 2 ∧
    (List.map Prod.snd
      (List.filter (fun r => r.1 % 256 == 0) [(0, 1), (0, 2)])).sum = 3 := by
  decide

/-- Claim C2. The claim states that a single sealed record with no
matching token yields an Aggregate Entry whose decrypted count is 1. The
code violates this: on one record with token 7 and score 10 the entry
decrypts to count 2, because the entry is seeded with a trivial 1 and the
loop then adds another trivial 1 for the current record itself. -/
theorem C2_single_record_count_two :
    decryptedEntries (aggregatePlain [(7, 10)]) = [(7, 10, 2)] := by
  decide

/-- Claim C3. The claim states that permuting the input records yields the
same set of (equivalence class, (decrypted sum, decrypted count)) pairs.
The code violates this: records (token 1, score 10) and (token 1, score
20) give decrypted sum 50 in one order and 40 in the other, because each
record's score is re-added once per earlier record of its class. -/
theorem C3_order_dependent_sums :
    decryptedEntries (aggregatePlain [(1, 10), (1, 20)]) = [(1, 50, 4)] ∧
    decryptedEntries (aggregatePlain [(1, 20), (1, 10)]) = [(1, 40, 4)] := by
  decide

/-- Claim C4. The claim states that the gate reveals exactly when the
number of parties holding the token reaches THRESHOLD, the decision being
a function of that number. The code violates this: its quorum check is a
count of independent random draws. A token held by all 5 banks is not
revealed when the five draws come up false, and a token held by a single
bank is revealed when they come up true, although 5 is at least THRESHOLD
and 1 is below it. -/
theorem C4_quorum_ignores_holders :
    partiesHolding [[(1, 10)], [(1, 20)], [(1, 30)], [(1, 40)], [(1, 50)]] 1
      = 5 ∧
    THRESHOLD ≤ 5 ∧
    revealFor (aggregatePlain [(1, 10), (1, 20), (1, 30), (1, 40), (1, 50)]) 1
      [false, false, false, false, false] = none ∧
    partiesHolding [[(2, 10)]] 2 = 1 ∧ 1 < THRESHOLD ∧
    revealFor (aggregatePlain [(2, 10)]) 2
      [true, true, true, true, true] = some (10, 2) := by
  decide

/-- Claim C5. The claim states that the accumulation width is large
enough for the maximal sum of scores, or an OverflowRisk condition is
signaled. The code violates this: the 4-block radix holds values modulo
256, far below the maximal 5 banks times 30 records times score 100, and
on three records of token 9 with score 100 the accumulated value 600
silently wraps to 88 with no overflow signal anywhere in the program. -/
theorem C5_sum_silently_wraps :
    decryptedEntries (aggregatePlain [(9, 100), (9, 100), (9, 100)])
      = [(9, 88, 7)] ∧
    (88 : Nat) = 600 % 256 ∧
    radixModulus ≤ N_BANKS * CLIENTS_PER_BANK * 100 := by
  decide

/-- Claim C6. The claim states that the decrypted count of an existing
Aggregate Entry is never zero. The code violates this: on 90 records
sharing one token the quadratic double counting accumulates a count of
1 + 90 + 90 * 89 / 2 = 4096, which the 8-bit radix reduces to a decrypted
count of 0 even though the entry exists; the mean computed from it divides
by zero with no DivisionUndefined signal. -/
theorem C6_count_zero_possible :
    decryptedEntries (aggregatePlain (List.replicate 90 (0, 1)))
      = [(0, 255, 0)] ∧
    0 < (aggregatePlain (List.replicate 90 (0, 1))).length := by
  have hmain : aggregatePlain (List.replicate 90 (0, 1))
      = [(0, (⟨255⟩, ⟨0⟩))] := by
    show (aggLoop (sealRecords (List.replicate 90 (0, 1))) []).1 = _
    rw [show sealRecords (List.replicate 90 ((0 : Nat), (1 : Nat)))
          = (encrypt 0, encrypt 1) :: sealRecords (List.replicate 89 (0, 1))
        from rfl]
    rw [aggLoop_fst_cons]
    have hdec : decrypt (encrypt 0) = 0 := by
      simp [decrypt, encrypt]
    rw [hdec]
    rw [show lookupAgg [] 0 = none from rfl]
    simp only [Option.getD_none]
    have ha1 : smart_add (create_trivial_radix 0) (encrypt 1) = ⟨1⟩ := by
      simp [smart_add, create_trivial_radix, encrypt, radixModulus_eq]
    have ha2 : smart_add (create_trivial_radix 1) (create_trivial_radix 1)
        = ⟨2⟩ := by
      simp [smart_add, create_trivial_radix, radixModulus_eq]
    rw [ha1, ha2]
    rw [scanLater_replicate_fst 89 1 2 (by norm_num) (by norm_num)]
    have hset : ∀ v : RadixCiphertext × RadixCiphertext,
        setEntry [] 0 v = [(0, v)] := by
      intro v
      rfl
    rw [hset]
    rw [aggLoop_replicate_fst 89 ((1 + 89) % 256) ((2 + 89) % 256)
      (Nat.mod_lt _ (by norm_num)) (Nat.mod_lt _ (by norm_num))]
  rw [hmain]
  decide

/-- Claim C7, counterexample. The claim states the engine decrypts no
token during aggregation. It does: aggregating a single sealed record
(token 0, score 5) produces a decryption trace containing the decryption
of the token ciphertext, performed to choose the storage bucket. -/
theorem C7_token_decrypted_counterexample :
    aggTrace (sealRecords [(0, 5)]) = [DecEvent.token 0] := by
  decide

/-- Claim C7, amended. During aggregation the engine decrypts no score
ciphertext; besides the encrypted equality results opened for its internal
control flow, its only decryptions are of token ciphertexts, exactly one
per record, used to pick the storage bucket. -/
theorem C7_decryption_profile (recs : List SealedRecord) :
    List.countP DecEvent.isScore (aggTrace recs) = 0 ∧
    List.countP DecEvent.isToken (aggTrace recs) = recs.length :=
  ⟨aggLoop_countP_score recs [], aggLoop_countP_token recs []⟩

/-- Claim C8. If a party's token has no Aggregate Entry, the Selective
Disclosure Gate produces no output for it and raises no error: the lookup
miss short-circuits to the not-revealed outcome. -/
theorem C8_missing_entry_not_revealed (aggs : Aggregates) (t : Nat)
    (draws : List Bool) (h : lookupAgg aggs t = none) :
    revealFor aggs t draws = none := by
  unfold revealFor
  rw [h]

/-- Claim C8, witness: token 2 has no entry in the aggregates built from a
single record with token 1, and the gate reveals nothing for it. -/
theorem C8_missing_entry_not_revealed_witness :
    revealFor (aggregatePlain [(1, 5)]) 2 [true, true, true, true, true]
      = none :=
  C8_missing_entry_not_revealed (aggregatePlain [(1, 5)]) 2
    [true, true, true, true, true] (by decide)

/-- Claim C9. Under the radix configuration of 4 blocks with 2-bit
messages, decrypting an encryption of x yields x modulo 256, the
homomorphic equality test compares plaintexts modulo 256, homomorphic
addition accumulates modulo 256, and two records whose tokens are
congruent modulo 256 end up merged into a single Aggregate Entry. -/
theorem C9_modulo_256_semantics (x y t1 t2 s1 s2 : Nat)
    (hmod : t1 % 256 = t2 % 256) :
    decrypt (encrypt x) = x % 256 ∧
    decrypt_bool (smart_eq (encrypt x) (encrypt y)) = (x % 256 == y % 256) ∧
    decrypt (smart_add (encrypt x) (encrypt y)) = (x + y) % 256 ∧
    (aggregatePlain [(t1, s1), (t2, s2)]).length = 1 := by
  have h256 : radixModulus = 256 := by
    norm_num [radixModulus, messageModulus, NUM_BLOCKS]
  refine ⟨?_, ?_, ?_, ?_⟩
  · simp [decrypt, encrypt, h256]
  · simp [decrypt_bool, smart_eq, encrypt, h256]
  · simp [decrypt, smart_add, encrypt, h256, Nat.add_mod]
  · simp [aggregatePlain, sealRecords, aggregate, aggLoop, scanLater,
      lookupAgg, setEntry, decrypt, encrypt, decrypt_bool, smart_eq,
      smart_add, create_trivial_radix, h256, hmod]

/-- Claim C9, witness at tokens 256 and 0, which are distinct but
congruent modulo 256, with scores 3 and 4 and sample plaintexts 5, 6. -/
theorem C9_modulo_256_semantics_witness :
    decrypt (encrypt 5) = 5 % 256 ∧
    decrypt_bool (smart_eq (encrypt 5) (encrypt 6)) = (5 % 256 == 6 % 256) ∧
    decrypt (smart_add (encrypt 5) (encrypt 6)) = (5 + 6) % 256 ∧
    (aggregatePlain [(256, 3), (0, 4)]).length = 1 :=
  C9_modulo_256_semantics 5 6 256 0 3 4 (by decide)

/-- Claim C10. The gate looks the party's full token up in the aggregates
map, whose keys are all decrypted tokens reduced modulo 256; for any token
of value at least 256 the lookup misses and nothing is revealed, whatever
the random draws, even though an entry for the token's class exists. -/
theorem C10_full_token_lookup_misses (recs : List (Nat × Nat))
    (known_id : Nat) (draws : List Bool) (h : 256 ≤ known_id) :
    lookupAgg (aggregatePlain recs) known_id = none ∧
    revealFor (aggregatePlain recs) known_id draws = none := by
  have h256 : radixModulus = 256 := by
    norm_num [radixModulus, messageModulus, NUM_BLOCKS]
  have hkeys : ∀ e ∈ aggregatePlain recs, Prod.fst e < radixModulus := by
    refine aggLoop_keys_lt (sealRecords recs) [] ?_ ?_
    · intro r hrm
      simp only [sealRecords, List.mem_map] at hrm
      obtain ⟨p, hp, hpe⟩ := hrm
      rw [← hpe]
      exact Nat.mod_lt _ (by rw [h256]; norm_num)
    · intro e he
      simp at he
  have hnone : lookupAgg (aggregatePlain recs) known_id = none :=
    lookupAgg_eq_none _ _ hkeys (by rw [h256]; exact h)
  refine ⟨hnone, ?_⟩
  unfold revealFor
  rw [hnone]

/-- Claim C10, witness: a single record with token 300 creates an entry
under key 44, and the gate's lookup of the full token 300 reveals
nothing even with every random draw true. -/
theorem C10_full_token_lookup_misses_witness :
    lookupAgg (aggregatePlain [(300, 7)]) 300 = none ∧
    revealFor (aggregatePlain [(300, 7)]) 300 [true, true, true, true, true]
      = none :=
  C10_full_token_lookup_misses [(300, 7)] 300 [true, true, true, true, true]
    (by decide)

end BankAML
